import Mathlib

/-!
Verification of the upload-provider specification against the source of
`src/twat_fs/upload_providers/dropbox.py` (the concrete chunked, conflict-aware
backend) and, for the orchestrator that is not shipped under `src/`, against a
model built from the specification's own words.

Strings that travel through the URL query machinery are modelled as byte
strings (`List Nat`, each element a byte value), the view `urllib.parse`'s
quoting layer ultimately operates on; well-formedness (`every byte < 256`) is
carried as an explicit hypothesis where it matters.
-/

namespace TwatFs

/-- Constant from dropbox.py line 34: `MAX_FILE_SIZE = 150 * 1024 * 1024`. -/
def MAX_FILE_SIZE : Nat := 150 * 1024 * 1024

/-- Constant from dropbox.py line 35: `SMALL_FILE_THRESHOLD = 4 * 1024 * 1024`. -/
def SMALL_FILE_THRESHOLD : Nat := 4 * 1024 * 1024

/-! Numeric constants (byte values) for the characters the query-string machinery treats specially. -/

def ampByte : Nat := 38

def eqsByte : Nat := 61

def pctByte : Nat := 37

def plusByte : Nat := 43

def spaceByte : Nat := 32

/-- Hex digit test, as `urllib.parse` accepts both cases when unquoting. -/
def isHexB (b : Nat) : Bool :=
  (48 ≤ b && b ≤ 57) || (65 ≤ b && b ≤ 70) || (97 ≤ b && b ≤ 102)

/-- Numeric value of a hex digit byte. -/
def hexVal (b : Nat) : Nat :=
  if b ≤ 57 then b - 48 else if b ≤ 70 then b - 55 else b - 87

/-- Upper-case hex digit byte for a value below 16, as `urllib.parse.quote` emits. -/
def hexDigit (n : Nat) : Nat :=
  if n < 10 then 48 + n else 55 + n

/-- Nats `urllib.parse.quote` never escapes (letters, digits, `_.-~`);
`urlencode` uses `safe=''` so nothing else is exempt. -/
def isSafeByte (b : Nat) : Bool :=
  (48 ≤ b && b ≤ 57) || (65 ≤ b && b ≤ 90) || (97 ≤ b && b ≤ 122) ||
    b == 95 || b == 46 || b == 45 || b == 126

/-- Model of `urllib.parse.quote_plus` with `safe=''` (the quoting used by
`urllib.parse.urlencode`): safe bytes pass through, a space becomes `+`,
everything else becomes `%XY` with upper-case hex. -/
def quote_plus : List Nat → List Nat
  | [] => []
  | b :: rest =>
    (if isSafeByte b then [b]
     else if b = spaceByte then [plusByte]
     else [pctByte, hexDigit (b / 16), hexDigit (b % 16)]) ++ quote_plus rest

/-- Model of the unquoting `urllib.parse.parse_qsl` applies to each name and
value: `+` becomes a space, `%XY` with two hex digits becomes the byte `XY`,
an ill-formed `%` sequence is kept literally. -/
def unquote_plus : List Nat → List Nat
  | [] => []
  | b :: rest =>
    if b = plusByte then spaceByte :: unquote_plus rest
    else if b = pctByte then
      match rest with
      | h1 :: h2 :: rest' =>
        if isHexB h1 && isHexB h2 then (16 * hexVal h1 + hexVal h2) :: unquote_plus rest'
        else pctByte :: unquote_plus (h1 :: h2 :: rest')
      | [h1] => pctByte :: unquote_plus [h1]
      | [] => [pctByte]
    else b :: unquote_plus rest
termination_by l => l.length
decreasing_by all_goals (simp [List.length_cons]; try omega)

/-- Split on `&`, as `qs.split('&')` does (an empty string yields one empty field). -/
def splitAmp : List Nat → List (List Nat)
  | [] => [[]]
  | b :: rest =>
    if b = ampByte then [] :: splitAmp rest
    else
      match splitAmp rest with
      | f :: fs => (b :: f) :: fs
      | [] => [[b]]

/-- Split a field at its first `=`, as `name_value.split('=', 1)`; `none` when
the field has no `=` at all. -/
def splitFirstEq : List Nat → Option (List Nat × List Nat)
  | [] => none
  | b :: rest =>
    if b = eqsByte then some ([], rest)
    else
      match splitFirstEq rest with
      | some (k, v) => some (b :: k, v)
      | none => none

/-- Model of `urllib.parse.parse_qsl(qs)` with its defaults: empty fields are
skipped, fields without `=` are skipped, fields whose value is blank are
skipped (`keep_blank_values=False`), and names and values are unquoted. -/
def parse_qsl (qs : List Nat) : List (List Nat × List Nat) :=
  (splitAmp qs).foldr
    (fun field acc =>
      if field = [] then acc
      else
        match splitFirstEq field with
        | none => acc
        | some (n, v) =>
          if v = [] then acc else (unquote_plus n, unquote_plus v) :: acc)
    []

/-- Python `dict` item assignment: an existing key keeps its position and gets
the new value, a new key is appended at the end. -/
def dictSet : List (List Nat × List Nat) → List Nat → List Nat → List (List Nat × List Nat)
  | [], k, v => [(k, v)]
  | (k', v') :: rest, k, v =>
    if k' = k then (k', v) :: rest else (k', v') :: dictSet rest k v

/-- Python `dict(pairs)`: repeated item assignment starting from the empty dict
(first-occurrence order, last value wins). -/
def pyDict (l : List (List Nat × List Nat)) : List (List Nat × List Nat) :=
  l.foldl (fun d p => dictSet d p.1 p.2) []

/-- Association-list lookup (the value a Python dict would hold for `k`). -/
def dLookup : List (List Nat × List Nat) → List Nat → Option (List Nat)
  | [], _ => none
  | (k', v') :: rest, k => if k' = k then some v' else dLookup rest k

/-- Python `'&'.join(fields)`. -/
def joinAmp : List (List Nat) → List Nat
  | [] => []
  | [f] => f
  | f :: fs => f ++ ampByte :: joinAmp fs

/-- Model of `urllib.parse.urlencode(query)` over a dict's items:
`quote_plus(k)=quote_plus(v)` pairs joined by `&`. -/
def urlencode (d : List (List Nat × List Nat)) : List Nat :=
  joinAmp (d.map fun p => quote_plus p.1 ++ eqsByte :: quote_plus p.2)

/-- A well-formed byte string: every element is an actual byte. -/
def BytesWf (l : List Nat) : Prop := ∀ b ∈ l, b < 256

instance (l : List Nat) : Decidable (BytesWf l) := by
  unfold BytesWf
  infer_instance

/-- The keys of an association-list dict, in order. -/
def dKeys (d : List (List Nat × List Nat)) : List (List Nat) := d.map Prod.fst

/-- A parsed URL, the six components `urllib.parse.urlparse` produces; the
Python string is empty exactly when every component is empty. -/
structure Url where
  scheme : List Nat
  netloc : List Nat
  path : List Nat
  params : List Nat
  query : List Nat
  fragment : List Nat
deriving DecidableEq

def Url.empty : Url := ⟨[], [], [], [], [], []⟩

/-- The bytes of `"dl"`. -/
def dlKey : List Nat := [100, 108]

/-- The bytes of `"1"`. -/
def oneVal : List Nat := [49]

/-- Model of dropbox.py lines 79-86, `_get_download_url`: falsy (empty) input
yields `None`; otherwise the query string is parsed to a dict, `dl` is set to
`"1"`, and the URL is rebuilt with the re-encoded query, all other components
untouched. -/
def get_download_url (u : Url) : Option Url :=
  if u = Url.empty then none
  else some { u with query := urlencode (dictSet (pyDict (parse_qsl u.query)) dlKey oneVal) }

/-- A seconds-resolution injected clock reading, the data
`datetime.now().strftime("%y%m%d%H%M%S")` renders: `yy` is the two-digit year
the `%y` directive produces. -/
structure Timestamp where
  yy : Nat
  mo : Nat
  dd : Nat
  hh : Nat
  mi : Nat
  ss : Nat
deriving DecidableEq

/-- Field ranges of a real clock reading (two-digit year, calendar bounds). -/
def Timestamp.Valid (t : Timestamp) : Prop :=
  t.yy < 100 ∧ 1 ≤ t.mo ∧ t.mo ≤ 12 ∧ 1 ≤ t.dd ∧ t.dd ≤ 31 ∧
    t.hh < 24 ∧ t.mi < 60 ∧ t.ss < 60

instance (t : Timestamp) : Decidable t.Valid := by
  unfold Timestamp.Valid
  infer_instance

/-- Two-digit zero-padded decimal rendering of a field below 100. -/
def pad2 (n : Nat) : String :=
  ⟨[Nat.digitChar (n / 10), Nat.digitChar (n % 10)]⟩

/-- Model of `strftime("%y%m%d%H%M%S")` on the injected reading. -/
def strftimeYmdHMS (t : Timestamp) : String :=
  pad2 t.yy ++ pad2 t.mo ++ pad2 t.dd ++ pad2 t.hh ++ pad2 t.mi ++ pad2 t.ss

/-- Target filename in unique mode, dropbox.py lines 157-159:
`f"{path.stem}-{timestamp}{path.suffix}"`. -/
def uniqueFilename (stem sfx : String) (t : Timestamp) : String :=
  stem ++ "-" ++ strftimeYmdHMS t ++ sfx

/-- Dropbox write mode, dropbox.py line 188: `overwrite` iff `force`, else `add`. -/
inductive WriteMode
  | add
  | overwrite
deriving DecidableEq

/-- One remote API call issued by the provider, in the order recorded. -/
inductive Call
  | getMetadata (p : String)
  | deleteV2 (p : String)
  | createFolderV2 (p : String)
  | filesUpload (content : List Nat) (p : String) (mode : WriteMode)
  | uploadSessionStart (chunk : List Nat)
  | uploadSessionAppendV2 (chunk : List Nat) (offset : Nat)
  | uploadSessionFinish (chunk : List Nat) (offset : Nat) (p : String) (mode : WriteMode)
  | sharingCreateSharedLink (p : String)
  | sharingListSharedLinks (p : String)
deriving DecidableEq

/-- Outcome of `files_get_metadata` at a path: a folder, a non-folder entry,
an `ApiError` whose path lookup is `not_found`, or any other `ApiError`. -/
inductive Meta
  | folder
  | file
  | notFound
  | otherApiError
deriving DecidableEq

/-- Remote behaviour of `sharing_create_shared_link_with_settings` at a path:
success with a link, the `shared_link_already_exists` ApiError (with the links
`sharing_list_shared_links` would then return), or any other ApiError. -/
inductive ShareResp
  | ok (url : Url)
  | alreadyExists (links : List Url)
  | apiError
deriving DecidableEq

/-- Classified errors `upload_file` can raise. -/
inductive UploadErr
  | missingToken
  | fileNotFound
  | fileTooLarge
  | folderExists (p : String)
  | apiError
  | directoryValidationFailed
  | retryError
  | uploadFailed
deriving DecidableEq

/-- The deterministic environment of one `upload_file` call: the token check,
the local file (`content` is its byte content, so its size is
`content.length`), the injected clock, and the remote's responses. The local
path's `name` is `stem ++ suffix`, as in `pathlib`. -/
structure Env where
  hasToken : Bool
  fileExists : Bool
  isFile : Bool
  content : List Nat
  stem : String
  sfx : String
  now : Timestamp
  meta : String → Meta
  share : String → ShareResp

/-- Python `upload_path.rstrip('/')`. -/
def rstripSlash (s : String) : String :=
  ⟨(s.data.reverse.dropWhile (fun c => c = '/')).reverse⟩

/-- The target filename, dropbox.py lines 156-161. -/
def dropboxFilename (stem sfx : String) (unique : Bool) (now : Timestamp) : String :=
  if unique then uniqueFilename stem sfx now else stem ++ sfx

/-- The target Dropbox path, dropbox.py line 164:
`f"{upload_path.rstrip('/')}/{filename}"`. -/
def targetPath (stem sfx : String) (unique : Bool) (now : Timestamp) (upload_path : String) :
    String :=
  rstripSlash upload_path ++ "/" ++ dropboxFilename stem sfx unique now

/-- Model of `_validate_file`, dropbox.py lines 67-76: existence / regular-file
check first, then the strict `size > MAX_FILE_SIZE` bound. -/
def validateFile (env : Env) : Except UploadErr Unit :=
  if !(env.fileExists && env.isFile) then Except.error UploadErr.fileNotFound
  else if MAX_FILE_SIZE < env.content.length then Except.error UploadErr.fileTooLarge
  else Except.ok ()

/-- Model of `_ensure_upload_directory`, dropbox.py lines 110-124, returning
the outcome and the remote calls made. -/
def ensureUploadDirectory (env : Env) (dir : String) : Except UploadErr Unit × List Call :=
  match env.meta dir with
  | Meta.folder => (Except.ok (), [Call.getMetadata dir])
  | Meta.file =>
    (Except.ok (), [Call.getMetadata dir, Call.deleteV2 dir, Call.createFolderV2 dir])
  | Meta.notFound => (Except.ok (), [Call.getMetadata dir, Call.createFolderV2 dir])
  | Meta.otherApiError =>
    (Except.error UploadErr.directoryValidationFailed, [Call.getMetadata dir])

/-- One attempt of `_get_share_url`'s body, dropbox.py lines 90-107; `error`
stands for the `DropboxUploadError` the attempt raises. -/
def getShareUrlAttempt (env : Env) (p : String) : Except Unit (Option Url) × List Call :=
  match env.share p with
  | ShareResp.ok url =>
    (Except.ok (if url = Url.empty then none else get_download_url url),
      [Call.sharingCreateSharedLink p])
  | ShareResp.alreadyExists links =>
    (match links with
      | [] => Except.error ()
      | u :: _ => Except.ok (if u = Url.empty then none else get_download_url u),
      [Call.sharingCreateSharedLink p, Call.sharingListSharedLinks p])
  | ShareResp.apiError => (Except.error (), [Call.sharingCreateSharedLink p])

/-- Model of `_get_share_url` with its `@retry(stop=stop_after_attempt(3), ...)`
wrapper: the environment is deterministic, so a failing attempt fails three
times and tenacity then raises `RetryError` (no `reraise=True` is set). -/
def getShareUrl (env : Env) (p : String) : Except UploadErr (Option Url) × List Call :=
  match getShareUrlAttempt env p with
  | (Except.ok v, calls) => (Except.ok v, calls)
  | (Except.error _, calls) => (Except.error UploadErr.retryError, calls ++ calls ++ calls)

/-- The chunked-upload loop of dropbox.py lines 212-223. `pos` is `f.tell()`,
`off` the cursor offset, `lastP` the `last_progress` threshold; the integer
percentage `int((f.tell() / file_size) * 100)` is modelled as the exact
floor `pos' * 100 / size`. Returns the session calls, the final cursor offset,
and the emitted progress percentages in order. -/
def chunkedLoop (content : List Nat) (target : String) (mode : WriteMode)
    (pos off lastP : Nat) : List Call × Nat × List Nat :=
  if _h : pos < content.length then
    let chunk := (content.drop pos).take SMALL_FILE_THRESHOLD
    let pos' := pos + chunk.length
    let call := if content.length - pos ≤ SMALL_FILE_THRESHOLD then
                  Call.uploadSessionFinish chunk off target mode
                else Call.uploadSessionAppendV2 chunk off
    let off' := if content.length - pos ≤ SMALL_FILE_THRESHOLD then off else pos'
    let progress := pos' * 100 / content.length
    let lastP' := if lastP + 10 ≤ progress then progress else lastP
    let r := chunkedLoop content target mode pos' off' lastP'
    (call :: r.1, r.2.1, (if lastP + 10 ≤ progress then [progress] else []) ++ r.2.2)
  else ([], off, [])
termination_by content.length - pos
decreasing_by
  simp only [List.length_take, List.length_drop]
  have ht : 0 < SMALL_FILE_THRESHOLD := by norm_num [SMALL_FILE_THRESHOLD]
  omega

/-- The chunked branch of `upload_file`, dropbox.py lines 204-223: the session
starts with the first chunk of `SMALL_FILE_THRESHOLD` bytes, the cursor is
created at `f.tell()`, then the loop runs. -/
def chunkedTransfer (content : List Nat) (target : String) (mode : WriteMode) :
    List Call × Nat × List Nat :=
  let initialChunk := content.take SMALL_FILE_THRESHOLD
  let r := chunkedLoop content target mode initialChunk.length initialChunk.length 0
  (Call.uploadSessionStart initialChunk :: r.1, r.2)

/-- The transfer step of `upload_file`, dropbox.py lines 192-223: a single
`files_upload` carrying the whole content when
`file_size <= SMALL_FILE_THRESHOLD`, the chunked session otherwise. -/
def transferCalls (content : List Nat) (target : String) (mode : WriteMode) : List Call :=
  if content.length ≤ SMALL_FILE_THRESHOLD then [Call.filesUpload content target mode]
  else (chunkedTransfer content target mode).1

/-- The tail of `upload_file` from line 187 on: transfer, then share-link
retrieval wrapped in the `try`/`except` that turns any failure (including a
falsy share URL) into `DropboxUploadError("Upload failed: ...")`. -/
def transferAndShare (env : Env) (target : String) (force : Bool) :
    Except UploadErr (Option Url) × List Call :=
  let mode := if force then WriteMode.overwrite else WriteMode.add
  let tcalls := transferCalls env.content target mode
  let s := getShareUrl env target
  match s.1 with
  | Except.error _ => (Except.error UploadErr.uploadFailed, tcalls ++ s.2)
  | Except.ok none => (Except.error UploadErr.uploadFailed, tcalls ++ s.2)
  | Except.ok (some u) => (Except.ok (some u), tcalls ++ s.2)

/-- Model of `upload_file`, dropbox.py lines 127-232, over a deterministic
environment: the result (`ok` carries the value returned to the caller, which
the source annotates as `str` but which can be `None` on the skip path) and
the ordered list of remote calls issued. -/
def upload_file (env : Env) (force unique : Bool) (upload_path : String) :
    Except UploadErr (Option Url) × List Call :=
  if !env.hasToken then (Except.error UploadErr.missingToken, [])
  else
    match validateFile env with
    | Except.error e => (Except.error e, [])
    | Except.ok _ =>
      let dir := rstripSlash upload_path
      let target := targetPath env.stem env.sfx unique env.now upload_path
      let ed := ensureUploadDirectory env dir
      match ed.1 with
      | Except.error e => (Except.error e, ed.2)
      | Except.ok _ =>
        if unique then
          let r := transferAndShare env target force
          (r.1, ed.2 ++ r.2)
        else
          match env.meta target with
          | Meta.folder =>
            (Except.error (UploadErr.folderExists target), ed.2 ++ [Call.getMetadata target])
          | Meta.file =>
            if !force then
              let s := getShareUrl env target
              ((match s.1 with
                | Except.error e => Except.error e
                | Except.ok v => Except.ok v),
                ed.2 ++ [Call.getMetadata target] ++ s.2)
            else
              let r := transferAndShare env target force
              (r.1, ed.2 ++ [Call.getMetadata target] ++ r.2)
          | Meta.notFound =>
            let r := transferAndShare env target force
            (r.1, ed.2 ++ [Call.getMetadata target] ++ r.2)
          | Meta.otherApiError =>
            (Except.error UploadErr.apiError, ed.2 ++ [Call.getMetadata target])

/-- A call that transfers file content (single-shot or any session call). -/
def isTransferCall : Call → Bool
  | Call.filesUpload _ _ _ => true
  | Call.uploadSessionStart _ => true
  | Call.uploadSessionAppendV2 _ _ => true
  | Call.uploadSessionFinish _ _ _ _ => true
  | _ => false

/-- A call that commits content to the target path: the single-shot
`files_upload` or the session's `files_upload_session_finish`. -/
def isCommitWrite : Call → Bool
  | Call.filesUpload _ _ _ => true
  | Call.uploadSessionFinish _ _ _ _ => true
  | _ => false

/-- Number of commit writes in a trace. -/
def commitWriteCount (l : List Call) : Nat := l.countP (fun c => isCommitWrite c)

/-- Session calls abstracted to chunk lengths and offsets, for size-level
reasoning about the chunked loop. -/
inductive CallN
  | start (len : Nat)
  | append (len off : Nat)
  | finish (len off : Nat)
  | upload (len : Nat)
  | other
deriving DecidableEq

/-- Forget chunk contents, keeping lengths and recorded cursor offsets. -/
def abstractCall : Call → CallN
  | Call.uploadSessionStart c => CallN.start c.length
  | Call.uploadSessionAppendV2 c off => CallN.append c.length off
  | Call.uploadSessionFinish c off _ _ => CallN.finish c.length off
  | Call.filesUpload c _ _ => CallN.upload c.length
  | _ => CallN.other

/-- Size-level commit-write test, matching `isCommitWrite` through
`abstractCall`. -/
def isCommitN : CallN → Bool
  | CallN.finish _ _ => true
  | CallN.upload _ => true
  | _ => false

/-- Fuel-driven size-level companion of `chunkedLoop`: same positions, offsets
and progress emissions, chunks replaced by their lengths. -/
def chunkedLoopN : Nat → Nat → Nat → Nat → Nat → List CallN × Nat × List Nat
  | 0, _, _, off, _ => ([], off, [])
  | fuel + 1, size, pos, off, lastP =>
    if pos < size then
      let len := min SMALL_FILE_THRESHOLD (size - pos)
      let pos' := pos + len
      let call := if size - pos ≤ SMALL_FILE_THRESHOLD then CallN.finish len off
                  else CallN.append len off
      let off' := if size - pos ≤ SMALL_FILE_THRESHOLD then off else pos'
      let progress := pos' * 100 / size
      let lastP' := if lastP + 10 ≤ progress then progress else lastP
      let r := chunkedLoopN fuel size pos' off' lastP'
      (call :: r.1, r.2.1, (if lastP + 10 ≤ progress then [progress] else []) ++ r.2.2)
    else ([], off, [])

/-- Size-level companion of `chunkedTransfer`. -/
def chunkedTransferN (size : Nat) : List CallN × Nat × List Nat :=
  let c0 := min SMALL_FILE_THRESHOLD size
  let r := chunkedLoopN size size c0 c0 0
  (CallN.start c0 :: r.1, r.2)

/-- Checks that every session call records a cursor offset equal to the bytes
read from the file before that call, threading the running byte count. -/
def offsetsOk : List Call → Nat → Bool
  | [], _ => true
  | Call.uploadSessionStart c :: rest, r => offsetsOk rest (r + c.length)
  | Call.uploadSessionAppendV2 c off :: rest, r =>
    decide (off = r) && offsetsOk rest (r + c.length)
  | Call.uploadSessionFinish c off _ _ :: rest, r =>
    decide (off = r) && offsetsOk rest (r + c.length)
  | _ :: rest, r => offsetsOk rest r

/-- Size-level version of `offsetsOk`. -/
def offsetsOkN : List CallN → Nat → Bool
  | [], _ => true
  | CallN.start len :: rest, r => offsetsOkN rest (r + len)
  | CallN.append len off :: rest, r => decide (off = r) && offsetsOkN rest (r + len)
  | CallN.finish len off :: rest, r => decide (off = r) && offsetsOkN rest (r + len)
  | CallN.upload _ :: rest, r => offsetsOkN rest r
  | CallN.other :: rest, r => offsetsOkN rest r

/-- Each emitted value is at least 10 above its predecessor (and the first at
least 10 above the seed), so the sequence strictly increases in steps of 10 or
more. -/
def tenSeparated : Nat → List Nat → Bool
  | _, [] => true
  | last, x :: xs => decide (last + 10 ≤ x) && tenSeparated x xs

/-- Modelled from the spec: the orchestrator of module `twat_fs.upload` is not
shipped under `src/` (only its CLI wrapper and tests are), so the fallback
chain of spec section 4.1 is modelled here. Each candidate backend's behaviour
for this call is one of: credentials absent, client construction failed, a
fatal input error, a backend-level failure (after its own local retries), or
success with a URL. -/
inductive Outcome
  | authAbsent
  | constructionFailed
  | fatal (msg : String)
  | failure (msg : String)
  | success (url : String)
deriving DecidableEq

/-- Outcomes the chain skips past (non-fatal for the chain). -/
def Outcome.skippable : Outcome → Bool
  | Outcome.authAbsent => true
  | Outcome.constructionFailed => true
  | Outcome.failure _ => true
  | _ => false

/-- The reason recorded for a candidate that did not succeed. -/
def Outcome.reason : Outcome → String
  | Outcome.authAbsent => "not configured"
  | Outcome.constructionFailed => "client construction failed"
  | Outcome.failure m => m
  | _ => ""

/-- Final result of the orchestrator chain. -/
inductive OrchResult
  | ok (url : String)
  | fatal (msg : String)
  | exhausted (reasons : List (String × String))
deriving DecidableEq

/-- Modelled from the spec (section 4.1): try candidates strictly in order;
missing credentials or failed construction skip to the next candidate; a fatal
error propagates immediately; a backend failure is recorded and the chain
continues; the first success returns its URL immediately; an exhausted chain
aggregates every candidate's failure reason. Returns the list of candidates
attempted, in order, together with the result. -/
def orchestrate : List (String × Outcome) → List String × OrchResult
  | [] => ([], OrchResult.exhausted [])
  | (n, o) :: rest =>
    match o with
    | Outcome.success u => ([n], OrchResult.ok u)
    | Outcome.fatal m => ([n], OrchResult.fatal m)
    | o' =>
      let r := orchestrate rest
      (n :: r.1,
        match r.2 with
        | OrchResult.exhausted rs => OrchResult.exhausted ((n, o'.reason) :: rs)
        | x => x)

/-- A concrete environment in which the remote reports a folder everywhere. -/
def envFolderConflict : Env :=
  ⟨true, true, true, [0], "f", ".txt", ⟨0, 1, 1, 0, 0, 0⟩,
    fun _ => Meta.folder, fun _ => ShareResp.apiError⟩

/-- A concrete environment in which the target file already exists and the
share-link call reports an empty URL. -/
def envSkipEmptyLink : Env :=
  ⟨true, true, true, [0], "f", ".txt", ⟨0, 1, 1, 0, 0, 0⟩,
    fun p => if p = "/upload/f.txt" then Meta.file else Meta.folder,
    fun _ => ShareResp.ok Url.empty⟩

/-- A concrete environment whose local file is missing. -/
def envMissingFile : Env :=
  ⟨true, false, false, [], "f", ".txt", ⟨0, 1, 1, 0, 0, 0⟩,
    fun _ => Meta.folder, fun _ => ShareResp.apiError⟩

/-- A nonempty URL used by concrete share-link environments. -/
def urlH : Url := ⟨[104], [], [], [], [], []⟩

/-- Metadata responses before a first upload: the target path is absent, the
upload directory is a folder. -/
def metaFirstUpload : String → Meta :=
  fun p => if p = "/upload/f.txt" then Meta.notFound else Meta.folder

/-- A share-link behaviour that always succeeds with `urlH`. -/
def shareOkUrlH : String → ShareResp := fun _ => ShareResp.ok urlH

/-! Theorems. -/

/-- C1: for an ordered chain of candidates, the orchestrator attempts the
candidates strictly in order; candidates whose credentials are absent, whose
client construction fails, or which fail at backend level are skipped
non-fatally, each being attempted exactly once; the first succeeding candidate
has its URL returned and the remaining candidates are never attempted
(modelled from the spec, section 4.1, as the orchestrator module is not under
`src/`). -/
theorem orchestrate_first_success (pre : List (String × Outcome))
    (hpre : ∀ p ∈ pre, p.2.skippable = true) (c u : String)
    (rest : List (String × Outcome)) :
    (orchestrate (pre ++ (c, Outcome.success u) :: rest)).2 = OrchResult.ok u ∧
    (orchestrate (pre ++ (c, Outcome.success u) :: rest)).1 = pre.map Prod.fst ++ [c] := by
  induction pre with
  | nil => simp [orchestrate]
  | cons p ps ih =>
    obtain ⟨n, o⟩ := p
    have hs : o.skippable = true := hpre (n, o) (by simp)
    have ih' := ih (fun q hq => hpre q (by simp [hq]))
    cases o with
    | authAbsent => simp [orchestrate, ih'.2, ih'.1]
    | constructionFailed => simp [orchestrate, ih'.2, ih'.1]
    | failure m => simp [orchestrate, ih'.2, ih'.1]
    | fatal m => simp [Outcome.skippable] at hs
    | success v => simp [Outcome.skippable] at hs

/-- C1 witness: in the chain A (auth absent), B (backend failure after its
local retries), C (succeeds), the result is C's URL and A, B, C are each
attempted exactly once, in order. -/
theorem orchestrate_first_success_witness :
    (∀ p ∈ [("A", Outcome.authAbsent), ("B", Outcome.failure "transient failure")],
      p.2.skippable = true) ∧
    (orchestrate [("A", Outcome.authAbsent), ("B", Outcome.failure "transient failure"),
      ("C", Outcome.success "https://c.example/file")]).2 =
        OrchResult.ok "https://c.example/file" ∧
    (orchestrate [("A", Outcome.authAbsent), ("B", Outcome.failure "transient failure"),
      ("C", Outcome.success "https://c.example/file")]).1 = ["A", "B", "C"] := by
  refine ⟨by decide, ?_⟩
  have h := orchestrate_first_success
    [("A", Outcome.authAbsent), ("B", Outcome.failure "transient failure")]
    (by decide) "C" "https://c.example/file" []
  simpa using h

/-- C2: the transfer step uses the chunked session path iff the file size is
strictly greater than `SMALL_FILE_THRESHOLD` (4 MiB); a file of at most 4 MiB
(including exactly 4 MiB) is sent as a single `files_upload` request carrying
the whole file content. -/
theorem transfer_chunked_iff (content : List Nat) (target : String) (mode : WriteMode) :
    ((∃ ch, Call.uploadSessionStart ch ∈ transferCalls content target mode) ↔
      SMALL_FILE_THRESHOLD < content.length) ∧
    (content.length ≤ SMALL_FILE_THRESHOLD →
      transferCalls content target mode = [Call.filesUpload content target mode]) := by
  constructor
  · constructor
    · rintro ⟨ch, hch⟩
      by_contra hle
      rw [Nat.not_lt] at hle
      simp [transferCalls, hle] at hch
    · intro hgt
      refine ⟨content.take SMALL_FILE_THRESHOLD, ?_⟩
      simp [transferCalls, Nat.not_le.mpr hgt, chunkedTransfer]
  · intro hle
    simp [transferCalls, hle]

/-- C2 witness: a one-byte file is sent as a single request with its whole
content. -/
theorem transfer_chunked_iff_witness :
    ([(0 : Nat)].length ≤ SMALL_FILE_THRESHOLD) ∧
    transferCalls [(0 : Nat)] "/upload/t.txt" WriteMode.add =
      [Call.filesUpload [(0 : Nat)] "/upload/t.txt" WriteMode.add] := by
  refine ⟨by decide, ?_⟩
  exact (transfer_chunked_iff [(0 : Nat)] "/upload/t.txt" WriteMode.add).2 (by decide)

/-- C4: with the provider configured, a source path that does not exist, is
not a regular file, or whose size exceeds the fixed 150 MiB maximum makes
`upload_file` raise a validation error and the trace of remote calls is empty:
no directory check, metadata fetch, transfer, or link request is issued. -/
theorem upload_validation_fatal (env : Env) (force unique : Bool) (up : String)
    (htok : env.hasToken = true)
    (hbad : env.fileExists = false ∨ env.isFile = false ∨
      MAX_FILE_SIZE < env.content.length) :
    (upload_file env force unique up = (Except.error UploadErr.fileNotFound, []) ∨
      upload_file env force unique up = (Except.error UploadErr.fileTooLarge, [])) ∧
    (upload_file env force unique up).2 = [] ∧
    MAX_FILE_SIZE = 150 * 1024 * 1024 := by
  have key : upload_file env force unique up = (Except.error UploadErr.fileNotFound, []) ∨
      upload_file env force unique up = (Except.error UploadErr.fileTooLarge, []) := by
    by_cases hef : env.fileExists = true ∧ env.isFile = true
    · right
      rcases hbad with h | h | h
      · rw [hef.1] at h; cases h
      · rw [hef.2] at h; cases h
      · simp [upload_file, htok, validateFile, hef.1, hef.2, h]
    · left
      have hand : (env.fileExists && env.isFile) = false := by
        cases hfe : env.fileExists <;> cases hfi : env.isFile <;> simp_all
      simp [upload_file, htok, validateFile, hand]
  refine ⟨key, ?_, rfl⟩
  rcases key with h | h <;> simp [h]

/-- C4 witness: a missing local file yields the validation error with an empty
remote trace. -/
theorem upload_validation_fatal_witness :
    envMissingFile.hasToken = true ∧ envMissingFile.fileExists = false ∧
    (upload_file envMissingFile false false "/upload").2 = [] := by
  refine ⟨by decide, by decide, ?_⟩
  exact (upload_validation_fatal envMissingFile false false "/upload" (by decide)
    (Or.inl (by decide))).2.1

/-- C7: when `unique` is false and the metadata fetch reports a directory at
the target path, `upload_file` fails with the fatal `FolderExistsError` and no
transfer call occurs in the trace. -/
theorem upload_folder_conflict (env : Env) (force : Bool) (up : String)
    (htok : env.hasToken = true) (hfe : env.fileExists = true) (hif : env.isFile = true)
    (hsize : env.content.length ≤ MAX_FILE_SIZE)
    (hdir : env.meta (rstripSlash up) ≠ Meta.otherApiError)
    (hmeta : env.meta (targetPath env.stem env.sfx false env.now up) = Meta.folder) :
    (upload_file env force false up).1 =
      Except.error (UploadErr.folderExists (targetPath env.stem env.sfx false env.now up)) ∧
    ∀ call ∈ (upload_file env force false up).2, isTransferCall call = false := by
  have hv : validateFile env = Except.ok () := by
    simp [validateFile, hfe, hif, Nat.not_lt.mpr hsize]
  cases hd : env.meta (rstripSlash up) with
  | otherApiError => exact absurd hd hdir
  | folder =>
    refine ⟨by simp [upload_file, htok, hv, ensureUploadDirectory, hd, hmeta], ?_⟩
    intro call hc
    simp [upload_file, htok, hv, ensureUploadDirectory, hd, hmeta] at hc
    rcases hc with h | h <;> simp [h, isTransferCall]
  | file =>
    refine ⟨by simp [upload_file, htok, hv, ensureUploadDirectory, hd, hmeta], ?_⟩
    intro call hc
    simp [upload_file, htok, hv, ensureUploadDirectory, hd, hmeta] at hc
    rcases hc with h | h | h | h <;> simp [h, isTransferCall]
  | notFound =>
    refine ⟨by simp [upload_file, htok, hv, ensureUploadDirectory, hd, hmeta], ?_⟩
    intro call hc
    simp [upload_file, htok, hv, ensureUploadDirectory, hd, hmeta] at hc
    rcases hc with h | h | h <;> simp [h, isTransferCall]

/-- C7 witness: a concrete environment whose remote has a folder at the target
path. -/
theorem upload_folder_conflict_witness :
    envFolderConflict.meta (rstripSlash "/upload") ≠ Meta.otherApiError ∧
    envFolderConflict.meta
      (targetPath envFolderConflict.stem envFolderConflict.sfx false
        envFolderConflict.now "/upload") = Meta.folder ∧
    (upload_file envFolderConflict false false "/upload").1 =
      Except.error (UploadErr.folderExists
        (targetPath envFolderConflict.stem envFolderConflict.sfx false
          envFolderConflict.now "/upload")) := by
  refine ⟨by decide, by decide, ?_⟩
  exact (upload_folder_conflict envFolderConflict false "/upload" (by decide) (by decide)
    (by decide) (by decide) (by decide) (by decide)).1

/-- C9: on the skip-existing path (target exists, `force=false`,
`unique=false`), when the share-link call reports an empty URL, `upload_file`
completes without raising and hands the caller `None` — contradicting the
function's own `-> str` annotation and the spec's bare-URL return contract
(the sibling success path guards against this with an explicit check). -/
theorem upload_skip_path_returns_none :
    envSkipEmptyLink.meta "/upload/f.txt" = Meta.file ∧
    (upload_file envSkipEmptyLink false false "/upload").1 = Except.ok none := by
  exact ⟨rfl, rfl⟩

/-! Lemmas about the chunked-upload loop. -/

theorem chunkedLoop_of_ge (content : List Nat) (t : String) (m : WriteMode)
    (pos off lastP : Nat) (h : content.length ≤ pos) :
    chunkedLoop content t m pos off lastP = ([], off, []) := by
  rw [chunkedLoop]
  simp [Nat.not_lt.mpr h]

theorem chunkedLoopN_of_ge (fuel size pos off lastP : Nat) (h : size ≤ pos) :
    chunkedLoopN fuel size pos off lastP = ([], off, []) := by
  cases fuel with
  | zero => rfl
  | succ fuel => simp [chunkedLoopN, Nat.not_lt.mpr h]

theorem chunk_length_of_last (content : List Nat) (pos : Nat)
    (hl : content.length - pos ≤ SMALL_FILE_THRESHOLD) :
    ((content.drop pos).take SMALL_FILE_THRESHOLD).length = content.length - pos := by
  simp only [List.length_take, List.length_drop]
  omega

theorem chunk_length_of_not_last (content : List Nat) (pos : Nat)
    (hl : ¬ content.length - pos ≤ SMALL_FILE_THRESHOLD) :
    ((content.drop pos).take SMALL_FILE_THRESHOLD).length = SMALL_FILE_THRESHOLD := by
  simp only [List.length_take, List.length_drop]
  omega

/-- Every session call in the loop's trace records a cursor offset equal to
the bytes read before that call: the cursor is advanced by exactly the bytes
read at each append, and is left unchanged by the final commit. -/
theorem chunkedLoop_offsetsOk (content : List Nat) (t : String) (m : WriteMode) :
    ∀ n pos lastP, content.length - pos ≤ n →
      offsetsOk (chunkedLoop content t m pos pos lastP).1 pos = true := by
  intro n
  induction n with
  | zero =>
    intro pos lastP hn
    rw [chunkedLoop_of_ge content t m _ _ _ (by omega)]
    rfl
  | succ n ih =>
    intro pos lastP hn
    by_cases hp : pos < content.length
    · rw [chunkedLoop]
      simp only [dif_pos hp]
      by_cases hl : content.length - pos ≤ SMALL_FILE_THRESHOLD
      · have hlen := chunk_length_of_last content pos hl
        have hdone : content.length ≤
            pos + ((content.drop pos).take SMALL_FILE_THRESHOLD).length := by omega
        simp only [if_pos hl]
        rw [chunkedLoop_of_ge content t m _ _ _ hdone]
        simp [offsetsOk]
      · have hlen := chunk_length_of_not_last content pos hl
        have hfuel : content.length -
            (pos + ((content.drop pos).take SMALL_FILE_THRESHOLD).length) ≤ n := by
          have hT : 0 < SMALL_FILE_THRESHOLD := by norm_num [SMALL_FILE_THRESHOLD]
          omega
        simp only [if_neg hl]
        simp only [offsetsOk, decide_eq_true_eq, Bool.and_eq_true]
        exact ⟨by simp, ih _ _ hfuel⟩
    · rw [chunkedLoop_of_ge content t m _ _ _ (Nat.not_lt.mp hp)]
      rfl

/-- The cursor offset the loop finishes with stays strictly below the file
size when it enters below the file size (the final commit does not advance
it). -/
theorem chunkedLoop_finalOff (content : List Nat) (t : String) (m : WriteMode) :
    ∀ n pos lastP, content.length - pos ≤ n → pos < content.length →
      (chunkedLoop content t m pos pos lastP).2.1 < content.length := by
  intro n
  induction n with
  | zero => intro pos lastP hn hp; omega
  | succ n ih =>
    intro pos lastP hn hp
    rw [chunkedLoop]
    simp only [dif_pos hp]
    by_cases hl : content.length - pos ≤ SMALL_FILE_THRESHOLD
    · have hlen := chunk_length_of_last content pos hl
      have hdone : content.length ≤
          pos + ((content.drop pos).take SMALL_FILE_THRESHOLD).length := by omega
      simp only [if_pos hl]
      rw [chunkedLoop_of_ge content t m _ _ _ hdone]
      exact hp
    · have hlen := chunk_length_of_not_last content pos hl
      have hfuel : content.length -
          (pos + ((content.drop pos).take SMALL_FILE_THRESHOLD).length) ≤ n := by
        have hT : 0 < SMALL_FILE_THRESHOLD := by norm_num [SMALL_FILE_THRESHOLD]
        omega
      have hlt : pos + ((content.drop pos).take SMALL_FILE_THRESHOLD).length <
          content.length := by omega
      simp only [if_neg hl]
      exact ih _ _ hfuel hlt

/-- The progress values the loop emits are separated by at least 10, starting
from the running threshold. -/
theorem chunkedLoop_tenSep (content : List Nat) (t : String) (m : WriteMode) :
    ∀ n pos off lastP, content.length - pos ≤ n →
      tenSeparated lastP (chunkedLoop content t m pos off lastP).2.2 = true := by
  intro n
  induction n with
  | zero =>
    intro pos off lastP hn
    rw [chunkedLoop_of_ge content t m _ _ _ (by omega)]
    rfl
  | succ n ih =>
    intro pos off lastP hn
    by_cases hp : pos < content.length
    · rw [chunkedLoop]
      simp only [dif_pos hp]
      have hT : 0 < SMALL_FILE_THRESHOLD := by norm_num [SMALL_FILE_THRESHOLD]
      have hck : 0 < ((content.drop pos).take SMALL_FILE_THRESHOLD).length := by
        simp only [List.length_take, List.length_drop]
        omega
      have hfuel : content.length -
          (pos + ((content.drop pos).take SMALL_FILE_THRESHOLD).length) ≤ n := by omega
      by_cases he : lastP + 10 ≤
          (pos + ((content.drop pos).take SMALL_FILE_THRESHOLD).length) * 100 /
            content.length
      · simp only [if_pos he]
        simp only [List.singleton_append, tenSeparated, Bool.and_eq_true,
          decide_eq_true_eq]
        exact ⟨he, ih _ _ _ hfuel⟩
      · simp only [if_neg he, List.nil_append]
        exact ih _ _ _ hfuel
    · rw [chunkedLoop_of_ge content t m _ _ _ (Nat.not_lt.mp hp)]
      rfl

/-- The loop performs exactly one commit write while there are bytes left, and
none otherwise. -/
theorem chunkedLoop_commitCount (content : List Nat) (t : String) (m : WriteMode) :
    ∀ n pos off lastP, content.length - pos ≤ n →
      commitWriteCount (chunkedLoop content t m pos off lastP).1 =
        if pos < content.length then 1 else 0 := by
  intro n
  induction n with
  | zero =>
    intro pos off lastP hn
    rw [chunkedLoop_of_ge content t m _ _ _ (by omega), if_neg (by omega)]
    rfl
  | succ n ih =>
    intro pos off lastP hn
    by_cases hp : pos < content.length
    · rw [chunkedLoop]
      simp only [dif_pos hp, if_pos hp]
      by_cases hl : content.length - pos ≤ SMALL_FILE_THRESHOLD
      · have hlen := chunk_length_of_last content pos hl
        have hdone : content.length ≤
            pos + ((content.drop pos).take SMALL_FILE_THRESHOLD).length := by omega
        simp only [if_pos hl]
        rw [chunkedLoop_of_ge content t m _ _ _ hdone]
        rfl
      · have hlen := chunk_length_of_not_last content pos hl
        have hT : 0 < SMALL_FILE_THRESHOLD := by norm_num [SMALL_FILE_THRESHOLD]
        have hfuel : content.length -
            (pos + ((content.drop pos).take SMALL_FILE_THRESHOLD).length) ≤ n := by omega
        have hlt : pos + ((content.drop pos).take SMALL_FILE_THRESHOLD).length <
            content.length := by omega
        simp only [if_neg hl]
        have hrec := ih (pos + ((content.drop pos).take SMALL_FILE_THRESHOLD).length)
          (pos + ((content.drop pos).take SMALL_FILE_THRESHOLD).length)
          (if lastP + 10 ≤ (pos + ((content.drop pos).take SMALL_FILE_THRESHOLD).length) *
              100 / content.length
            then (pos + ((content.drop pos).take SMALL_FILE_THRESHOLD).length) * 100 /
              content.length
            else lastP) hfuel
        rw [if_pos hlt] at hrec
        simp [commitWriteCount, isCommitWrite] at hrec ⊢
        exact hrec
    · rw [chunkedLoop_of_ge content t m _ _ _ (Nat.not_lt.mp hp), if_neg hp]
      rfl

/-- The chunked loop agrees with its size-level companion once chunk contents
are forgotten, for any sufficient fuel. -/
theorem chunkedLoop_eq_N (content : List Nat) (t : String) (m : WriteMode) :
    ∀ fuel pos off lastP, content.length - pos ≤ fuel →
      ((chunkedLoop content t m pos off lastP).1.map abstractCall,
        (chunkedLoop content t m pos off lastP).2) =
      chunkedLoopN fuel content.length pos off lastP := by
  intro fuel
  induction fuel with
  | zero =>
    intro pos off lastP h
    have hge : content.length ≤ pos := by omega
    rw [chunkedLoop_of_ge content t m _ _ _ hge, chunkedLoopN_of_ge _ _ _ _ _ hge]
    rfl
  | succ fuel ih =>
    intro pos off lastP h
    by_cases hp : pos < content.length
    · have hmin : ((content.drop pos).take SMALL_FILE_THRESHOLD).length =
          min SMALL_FILE_THRESHOLD (content.length - pos) := by
        simp [List.length_take, List.length_drop]
      have hT : 0 < SMALL_FILE_THRESHOLD := by norm_num [SMALL_FILE_THRESHOLD]
      have hfuel : content.length -
          (pos + min SMALL_FILE_THRESHOLD (content.length - pos)) ≤ fuel := by omega
      rw [chunkedLoop]
      simp only [dif_pos hp]
      simp only [chunkedLoopN, if_pos hp]
      by_cases hl : content.length - pos ≤ SMALL_FILE_THRESHOLD
      · simp only [if_pos hl]
        rw [hmin, ← ih _ _ _ hfuel]
        simp [abstractCall, hmin]
      · simp only [if_neg hl]
        rw [hmin, ← ih _ _ _ hfuel]
        simp [abstractCall, hmin]
    · rw [chunkedLoop_of_ge content t m _ _ _ (Nat.not_lt.mp hp),
        chunkedLoopN_of_ge _ _ _ _ _ (Nat.not_lt.mp hp)]
      rfl

/-- The final offset and the emitted progress values of the chunked transfer
depend only on the file size. -/
theorem chunkedTransfer_sizeLevel (content : List Nat) (t : String) (m : WriteMode) :
    (chunkedTransfer content t m).2.1 = (chunkedTransferN content.length).2.1 ∧
    (chunkedTransfer content t m).2.2 = (chunkedTransferN content.length).2.2 := by
  have hc0 : (content.take SMALL_FILE_THRESHOLD).length =
      min SMALL_FILE_THRESHOLD content.length := by
    simp [List.length_take]
  have h := chunkedLoop_eq_N content t m content.length
    (min SMALL_FILE_THRESHOLD content.length) (min SMALL_FILE_THRESHOLD content.length) 0
    (by omega)
  have h2 := congrArg Prod.snd h
  simp only [chunkedTransfer, chunkedTransferN, hc0]
  exact ⟨congrArg Prod.fst h2, congrArg Prod.snd h2⟩

/-- C5 amended: at the session start and at every append step the cursor
offset equals the total bytes read so far (each session call records an offset
equal to the bytes read before it); the final commit leaves the cursor
unchanged, so at transfer completion the cursor offset is strictly below the
file size rather than equal to it. -/
theorem chunked_cursor_invariant (content : List Nat) (t : String) (m : WriteMode)
    (h : SMALL_FILE_THRESHOLD < content.length) :
    offsetsOk (chunkedTransfer content t m).1 0 = true ∧
    (chunkedTransfer content t m).2.1 < content.length := by
  have hc0 : (content.take SMALL_FILE_THRESHOLD).length = SMALL_FILE_THRESHOLD := by
    simp only [List.length_take]
    omega
  constructor
  · simp only [chunkedTransfer, offsetsOk, Nat.zero_add]
    rw [hc0]
    exact chunkedLoop_offsetsOk content t m content.length _ _ (by omega)
  · simp only [chunkedTransfer]
    rw [hc0]
    exact chunkedLoop_finalOff content t m content.length _ _ (by omega) (by omega)

/-- C5 amended witness: a 4 MiB + 1 byte file. -/
theorem chunked_cursor_invariant_witness :
    SMALL_FILE_THRESHOLD < (List.replicate 4194305 (0 : Nat)).length ∧
    offsetsOk (chunkedTransfer (List.replicate 4194305 (0 : Nat)) "/upload/w.bin"
      WriteMode.add).1 0 = true := by
  have h : SMALL_FILE_THRESHOLD < (List.replicate 4194305 (0 : Nat)).length := by
    rw [List.length_replicate]
    norm_num [SMALL_FILE_THRESHOLD]
  exact ⟨h, (chunked_cursor_invariant _ _ _ h).1⟩

/-- C5 counterexample: for a 4 MiB + 1 byte file the transfer completes with
cursor offset 4194304, not the file size 4194305 — the claim that the offset
equals the file size at completion is false. -/
theorem chunked_completion_offset_counterexample :
    (chunkedTransfer (List.replicate 4194305 (0 : Nat)) "/upload/big.bin"
      WriteMode.add).2.1 ≠ (List.replicate 4194305 (0 : Nat)).length := by
  rw [(chunkedTransfer_sizeLevel _ _ _).1, List.length_replicate]
  decide

/-- C6 amended: the emitted progress sequence strictly increases by at least
10 between consecutive emissions (hence non-decreasing, no duplicates); an
emission happens exactly when the percentage after a chunk is at least 10
above the last emitted value, not at every multiple-of-ten crossing. -/
theorem chunked_progress_emissions (content : List Nat) (t : String) (m : WriteMode) :
    tenSeparated 0 (chunkedTransfer content t m).2.2 = true := by
  simp only [chunkedTransfer]
  exact chunkedLoop_tenSep content t m content.length _ _ _ (by omega)

/-- C6 counterexample: a 38 MiB file (ten chunks) emits
[21, 31, 42, 52, 63, 73, 84, 94]; at the final chunk the percentage reaches
100, crossing the 100 threshold (last emission 94), yet no notification is
emitted — refuting the claim that every new multiple-of-ten crossing emits. -/
theorem chunked_progress_missed_decile_counterexample :
    (chunkedTransfer (List.replicate 39845888 (0 : Nat)) "/upload/big2.bin"
      WriteMode.overwrite).2.2 = [21, 31, 42, 52, 63, 73, 84, 94] ∧
    100 ∉ (chunkedTransfer (List.replicate 39845888 (0 : Nat)) "/upload/big2.bin"
      WriteMode.overwrite).2.2 := by
  rw [(chunkedTransfer_sizeLevel _ _ _).2, List.length_replicate]
  exact ⟨by decide, by decide⟩

/-- Any transfer performs exactly one commit write: the single-shot request,
or the one `files_upload_session_finish` of a chunked session. -/
theorem transferCalls_commitCount (content : List Nat) (t : String) (m : WriteMode) :
    commitWriteCount (transferCalls content t m) = 1 := by
  by_cases hle : content.length ≤ SMALL_FILE_THRESHOLD
  · simp [transferCalls, hle, commitWriteCount, isCommitWrite]
  · have hc0 : (content.take SMALL_FILE_THRESHOLD).length = SMALL_FILE_THRESHOLD := by
      simp only [List.length_take]
      omega
    simp only [transferCalls, if_neg hle, chunkedTransfer]
    have h := chunkedLoop_commitCount content t m content.length SMALL_FILE_THRESHOLD
      SMALL_FILE_THRESHOLD 0 (by omega)
    rw [if_pos (by omega)] at h
    simp [commitWriteCount, List.countP_cons, isCommitWrite, hc0] at h ⊢
    exact h

/-! Lemmas about the unique-name timestamp. -/

theorem pad2_data (n : Nat) :
    (pad2 n).data = [Nat.digitChar (n / 10), Nat.digitChar (n % 10)] := rfl

set_option maxRecDepth 4000 in
theorem digitPair_inj : ∀ a, a < 100 → ∀ b, b < 100 →
    Nat.digitChar (a / 10) = Nat.digitChar (b / 10) →
    Nat.digitChar (a % 10) = Nat.digitChar (b % 10) → a = b := by decide

/-- The rendered timestamp determines the reading, over valid field ranges. -/
theorem strftime_inj (t1 t2 : Timestamp) (h1 : t1.Valid) (h2 : t2.Valid)
    (h : (strftimeYmdHMS t1).data = (strftimeYmdHMS t2).data) : t1 = t2 := by
  obtain ⟨y1, mo1, d1, hh1, mi1, s1⟩ := t1
  obtain ⟨y2, mo2, d2, hh2, mi2, s2⟩ := t2
  dsimp only [Timestamp.Valid] at h1 h2
  obtain ⟨hy1, hmo1l, hmo1, hd1l, hd1, hhh1, hmi1, hs1⟩ := h1
  obtain ⟨hy2, hmo2l, hmo2, hd2l, hd2, hhh2, hmi2, hs2⟩ := h2
  simp only [strftimeYmdHMS, String.data_append, pad2_data, List.cons_append,
    List.nil_append, List.cons.injEq, and_true] at h
  obtain ⟨e1, e2, e3, e4, e5, e6, e7, e8, e9, e10, e11, e12⟩ := h
  have hy : y1 = y2 := digitPair_inj y1 (by omega) y2 (by omega) e1 e2
  have hmo : mo1 = mo2 := digitPair_inj mo1 (by omega) mo2 (by omega) e3 e4
  have hd : d1 = d2 := digitPair_inj d1 (by omega) d2 (by omega) e5 e6
  have hhh : hh1 = hh2 := digitPair_inj hh1 (by omega) hh2 (by omega) e7 e8
  have hmi : mi1 = mi2 := digitPair_inj mi1 (by omega) mi2 (by omega) e9 e10
  have hs : s1 = s2 := digitPair_inj s1 (by omega) s2 (by omega) e11 e12
  simp [hy, hmo, hd, hhh, hmi, hs]

/-- C8: in unique mode the remote name splices the two-digit seconds-resolution
timestamp between stem and extension; two readings that differ (at seconds
resolution, within valid ranges) give distinct names, while equal readings
(the same second) give the same name. -/
theorem unique_name_timestamp (stem sfx : String) (t1 t2 : Timestamp)
    (h1 : t1.Valid) (h2 : t2.Valid) :
    (t1 ≠ t2 → uniqueFilename stem sfx t1 ≠ uniqueFilename stem sfx t2) ∧
    (t1 = t2 → uniqueFilename stem sfx t1 = uniqueFilename stem sfx t2) := by
  constructor
  · intro hne heq
    apply hne
    apply strftime_inj t1 t2 h1 h2
    have hd := congrArg String.data heq
    simp only [uniqueFilename, String.data_append, List.append_assoc] at hd
    have hd1 := List.append_cancel_left hd
    have hd2 := List.append_cancel_left hd1
    exact List.append_cancel_right hd2
  · intro heq
    rw [heq]

/-- C8 witness: readings one second apart give distinct names; the same
reading repeats the name. -/
theorem unique_name_timestamp_witness :
    (Timestamp.mk 25 10 12 9 30 0).Valid ∧ (Timestamp.mk 25 10 12 9 30 1).Valid ∧
    uniqueFilename "report" ".txt" (Timestamp.mk 25 10 12 9 30 0) ≠
      uniqueFilename "report" ".txt" (Timestamp.mk 25 10 12 9 30 1) := by
  refine ⟨by decide, by decide, ?_⟩
  exact (unique_name_timestamp "report" ".txt" (Timestamp.mk 25 10 12 9 30 0)
    (Timestamp.mk 25 10 12 9 30 1) (by decide) (by decide)).1 (by decide)

/-- The upload directory path is never the target path (the target appends a
slash and a filename). -/
theorem rstrip_ne_targetPath (stem sfx : String) (unique : Bool) (now : Timestamp)
    (up : String) : rstripSlash up ≠ targetPath stem sfx unique now up := by
  intro h
  have hlen := congrArg String.length h
  simp only [targetPath, String.length_append] at hlen
  have hslash : ("/" : String).length = 1 := rfl
  omega

/-- C3: with `unique=false, force=false`, when the target is absent the upload
issues its single commit write; run against the resulting state (target now an
existing file) the same upload issues no write or transfer call at all — its
remote trace is exactly directory check, metadata fetch, link retrieval — and
returns the same URL the first run returned. -/
theorem upload_idempotent_skip (content : List Nat) (stem sfx : String) (now : Timestamp)
    (metaFn : String → Meta) (shareFn : String → ShareResp) (up : String) (u : Url)
    (hdir : metaFn (rstripSlash up) = Meta.folder)
    (htgt : metaFn (targetPath stem sfx false now up) = Meta.notFound)
    (hsh : shareFn (targetPath stem sfx false now up) = ShareResp.ok u)
    (hu : u ≠ Url.empty)
    (hsize : content.length ≤ MAX_FILE_SIZE) :
    commitWriteCount (upload_file
      ⟨true, true, true, content, stem, sfx, now, metaFn, shareFn⟩ false false up).2 = 1 ∧
    (upload_file ⟨true, true, true, content, stem, sfx, now,
        fun p => if p = targetPath stem sfx false now up then Meta.file else metaFn p,
        shareFn⟩ false false up).2 =
      [Call.getMetadata (rstripSlash up),
       Call.getMetadata (targetPath stem sfx false now up),
       Call.sharingCreateSharedLink (targetPath stem sfx false now up)] ∧
    commitWriteCount (upload_file ⟨true, true, true, content, stem, sfx, now,
        fun p => if p = targetPath stem sfx false now up then Meta.file else metaFn p,
        shareFn⟩ false false up).2 = 0 ∧
    (upload_file ⟨true, true, true, content, stem, sfx, now,
        fun p => if p = targetPath stem sfx false now up then Meta.file else metaFn p,
        shareFn⟩ false false up).1 =
      (upload_file ⟨true, true, true, content, stem, sfx, now, metaFn, shareFn⟩
        false false up).1 ∧
    (∃ v, (upload_file ⟨true, true, true, content, stem, sfx, now, metaFn, shareFn⟩
      false false up).1 = Except.ok (some v)) := by
  have hne := rstrip_ne_targetPath stem sfx false now up
  obtain ⟨r, hr⟩ : ∃ r, get_download_url u = some r :=
    ⟨{ u with query := urlencode (dictSet (pyDict (parse_qsl u.query)) dlKey oneVal) },
      by rw [get_download_url, if_neg hu]⟩
  have run1 : upload_file ⟨true, true, true, content, stem, sfx, now, metaFn, shareFn⟩
      false false up =
      (Except.ok (some r),
        Call.getMetadata (rstripSlash up) ::
          Call.getMetadata (targetPath stem sfx false now up) ::
          (transferCalls content (targetPath stem sfx false now up) WriteMode.add ++
            [Call.sharingCreateSharedLink (targetPath stem sfx false now up)])) := by
    simp [upload_file, validateFile, Nat.not_lt.mpr hsize, ensureUploadDirectory, hdir,
      htgt, transferAndShare, getShareUrl, getShareUrlAttempt, hsh, hu, hr]
  have run2 : upload_file ⟨true, true, true, content, stem, sfx, now,
      fun p => if p = targetPath stem sfx false now up then Meta.file else metaFn p,
      shareFn⟩ false false up =
      (Except.ok (some r),
        [Call.getMetadata (rstripSlash up),
         Call.getMetadata (targetPath stem sfx false now up),
         Call.sharingCreateSharedLink (targetPath stem sfx false now up)]) := by
    simp [upload_file, validateFile, Nat.not_lt.mpr hsize, ensureUploadDirectory, hdir,
      hne, getShareUrl, getShareUrlAttempt, hsh, hu, hr]
  refine ⟨?_, ?_, ?_, ?_, ?_⟩
  · rw [run1]
    have hc := transferCalls_commitCount content (targetPath stem sfx false now up)
      WriteMode.add
    simp only [commitWriteCount, List.countP_cons, List.countP_append,
      isCommitWrite] at hc ⊢
    simp [hc]
  · rw [run2]
  · rw [run2]
    simp [commitWriteCount, List.countP_cons, isCommitWrite]
  · rw [run1, run2]
  · exact ⟨r, by rw [run1]⟩

/-- C3 witness: a concrete one-byte file, absent target, healthy share link. -/
theorem upload_idempotent_skip_witness :
    metaFirstUpload (rstripSlash "/upload") = Meta.folder ∧
    metaFirstUpload (targetPath "f" ".txt" false (Timestamp.mk 0 1 1 0 0 0) "/upload") =
      Meta.notFound ∧
    urlH ≠ Url.empty ∧
    commitWriteCount (upload_file
      ⟨true, true, true, [0], "f", ".txt", Timestamp.mk 0 1 1 0 0 0, metaFirstUpload,
        shareOkUrlH⟩ false false "/upload").2 = 1 := by
  refine ⟨by decide, by decide, by decide, ?_⟩
  exact (upload_idempotent_skip [0] "f" ".txt" (Timestamp.mk 0 1 1 0 0 0) metaFirstUpload
    shareOkUrlH "/upload" urlH (by decide) (by decide) (by decide) (by decide)
    (by decide)).1

/-! Lemmas about the query-string machinery behind `_get_download_url`. -/

theorem isSafeByte_bound (b : Nat) (h : isSafeByte b = true) : b < 127 := by
  simp only [isSafeByte, Bool.or_eq_true, Bool.and_eq_true, decide_eq_true_eq,
    beq_iff_eq] at h
  omega

theorem isSafeByte_facts : ∀ b, b < 127 → isSafeByte b = true →
    b ≠ plusByte ∧ b ≠ pctByte ∧ b ≠ ampByte ∧ b ≠ eqsByte ∧ b ≠ spaceByte := by
  decide

theorem hexVal_lt (b : Nat) (h : isHexB b = true) : hexVal b < 16 := by
  simp only [isHexB, Bool.or_eq_true, Bool.and_eq_true, decide_eq_true_eq] at h
  simp only [hexVal]
  split_ifs <;> omega

theorem hexDigit_facts : ∀ n, n < 16 →
    isHexB (hexDigit n) = true ∧ hexVal (hexDigit n) = n ∧
    hexDigit n ≠ ampByte ∧ hexDigit n ≠ eqsByte ∧ hexDigit n < 256 := by
  decide

/-- Quoting never produces a separator byte (`&` or `=`). -/
theorem mem_quote_plus (s : List Nat) (hwf : BytesWf s) :
    ∀ b ∈ quote_plus s, b ≠ ampByte ∧ b ≠ eqsByte := by
  induction s with
  | nil => simp [quote_plus]
  | cons c rest ih =>
    intro b hb
    have hcw : c < 256 := hwf c (by simp)
    have hrest := ih (fun x hx => hwf x (by simp [hx]))
    simp only [quote_plus, List.mem_append] at hb
    rcases hb with hb | hb
    · by_cases hs : isSafeByte c = true
      · have hf := isSafeByte_facts c (isSafeByte_bound c hs) hs
        rw [if_pos hs] at hb
        simp only [List.mem_singleton] at hb
        subst hb
        exact ⟨hf.2.2.1, hf.2.2.2.1⟩
      · by_cases hsp : c = spaceByte
        · rw [if_neg hs, if_pos hsp] at hb
          simp only [List.mem_singleton] at hb
          subst hb
          refine ⟨by decide, by decide⟩
        · rw [if_neg hs, if_neg hsp] at hb
          have h1 := hexDigit_facts (c / 16) (by omega)
          have h2 := hexDigit_facts (c % 16) (by omega)
          simp only [List.mem_cons, List.mem_singleton, List.not_mem_nil, or_false] at hb
          rcases hb with hb | hb | hb <;> subst hb
          · refine ⟨by decide, by decide⟩
          · exact ⟨h1.2.2.1, h1.2.2.2.1⟩
          · exact ⟨h2.2.2.1, h2.2.2.2.1⟩
    · exact hrest b hb

theorem quote_plus_ne_nil (s : List Nat) (h : s ≠ []) : quote_plus s ≠ [] := by
  cases s with
  | nil => simp at h
  | cons c rest =>
    simp only [quote_plus]
    by_cases hs : isSafeByte c = true
    · simp [hs]
    · by_cases hsp : c = spaceByte
      · rw [if_neg hs, if_pos hsp]
        simp
      · rw [if_neg hs, if_neg hsp]
        simp

theorem unquote_plus_nil : unquote_plus [] = [] := by
  rw [unquote_plus.eq_def]

theorem unquote_plus_cons (b : Nat) (rest : List Nat) :
    unquote_plus (b :: rest) =
      if b = plusByte then spaceByte :: unquote_plus rest
      else if b = pctByte then
        match rest with
        | h1 :: h2 :: rest' =>
          if isHexB h1 && isHexB h2 then
            (16 * hexVal h1 + hexVal h2) :: unquote_plus rest'
          else pctByte :: unquote_plus (h1 :: h2 :: rest')
        | [h1] => pctByte :: unquote_plus [h1]
        | [] => [pctByte]
      else b :: unquote_plus rest := by
  rw [unquote_plus.eq_def]

/-- Unquoting inverts quoting on well-formed byte strings. -/
theorem unquote_quote (s : List Nat) (hwf : BytesWf s) :
    unquote_plus (quote_plus s) = s := by
  induction s with
  | nil => rw [quote_plus, unquote_plus_nil]
  | cons c rest ih =>
    have hcw : c < 256 := hwf c (by simp)
    have ih' := ih (fun x hx => hwf x (by simp [hx]))
    by_cases hs : isSafeByte c = true
    · have hf := isSafeByte_facts c (isSafeByte_bound c hs) hs
      rw [quote_plus, if_pos hs]
      rw [List.singleton_append, unquote_plus_cons]
      rw [if_neg hf.1, if_neg hf.2.1, ih']
    · by_cases hsp : c = spaceByte
      · subst hsp
        rw [quote_plus, if_neg hs, if_pos rfl]
        rw [List.singleton_append, unquote_plus_cons, if_pos rfl, ih']
      · rw [quote_plus, if_neg hs, if_neg hsp]
        have h1 := hexDigit_facts (c / 16) (by omega)
        have h2 := hexDigit_facts (c % 16) (by omega)
        rw [List.cons_append, List.cons_append, List.cons_append, List.nil_append,
          unquote_plus_cons]
        rw [if_neg (by decide), if_pos rfl]
        simp [h1.1, h2.1, h1.2.1, h2.2.1, ih', Nat.div_add_mod]

theorem splitAmp_ne_nil : ∀ l : List Nat, splitAmp l ≠ [] := by
  intro l
  induction l with
  | nil => simp [splitAmp]
  | cons b rest ih =>
    simp only [splitAmp]
    by_cases hb : b = ampByte
    · simp [hb]
    · simp only [if_neg hb]
      cases h : splitAmp rest with
      | nil => simp
      | cons f fs => simp

theorem splitAmp_no_amp : ∀ l : List Nat, ampByte ∉ l → splitAmp l = [l] := by
  intro l
  induction l with
  | nil => intro _; rfl
  | cons b rest ih =>
    intro h
    have hb : b ≠ ampByte := fun e => h (by simp [e])
    have hr : ampByte ∉ rest := fun e => h (by simp [e])
    simp only [splitAmp, if_neg hb, ih hr]

theorem splitAmp_append (l t : List Nat) (h : ampByte ∉ l) :
    splitAmp (l ++ ampByte :: t) = l :: splitAmp t := by
  induction l with
  | nil => simp [splitAmp]
  | cons b rest ih =>
    have hb : b ≠ ampByte := fun e => h (by simp [e])
    have hr : ampByte ∉ rest := fun e => h (by simp [e])
    simp only [List.cons_append, splitAmp, if_neg hb, List.append_eq]
    rw [ih hr]

theorem splitFirstEq_append (k v : List Nat) (h : eqsByte ∉ k) :
    splitFirstEq (k ++ eqsByte :: v) = some (k, v) := by
  induction k with
  | nil => simp [splitFirstEq]
  | cons b rest ih =>
    have hb : b ≠ eqsByte := fun e => h (by simp [e])
    have hr : eqsByte ∉ rest := fun e => h (by simp [e])
    simp [splitFirstEq, if_neg hb, ih hr]

theorem splitAmp_sub : ∀ l : List Nat, ∀ f ∈ splitAmp l, ∀ b ∈ f, b ∈ l := by
  intro l
  induction l with
  | nil =>
    intro f hf b hb
    simp only [splitAmp, List.mem_singleton] at hf
    subst hf
    simp at hb
  | cons c rest ih =>
    intro f hf b hb
    simp only [splitAmp] at hf
    by_cases hc : c = ampByte
    · rw [if_pos hc] at hf
      rcases List.mem_cons.mp hf with hf | hf
      · subst hf
        simp at hb
      · exact List.mem_cons_of_mem _ (ih f hf b hb)
    · rw [if_neg hc] at hf
      cases hsa : splitAmp rest with
      | nil => exact absurd hsa (splitAmp_ne_nil rest)
      | cons g gs =>
        rw [hsa] at hf
        rcases List.mem_cons.mp hf with hf | hf
        · subst hf
          rcases List.mem_cons.mp hb with hb | hb
          · subst hb
            simp
          · have hg : g ∈ splitAmp rest := by
              rw [hsa]
              exact List.mem_cons_self g gs
            exact List.mem_cons_of_mem _ (ih g hg b hb)
        · have hfs : f ∈ splitAmp rest := by
            rw [hsa]
            exact List.mem_cons_of_mem _ hf
          exact List.mem_cons_of_mem _ (ih f hfs b hb)

theorem splitFirstEq_sub : ∀ f k v : List Nat, splitFirstEq f = some (k, v) →
    (∀ b ∈ k, b ∈ f) ∧ (∀ b ∈ v, b ∈ f) := by
  intro f
  induction f with
  | nil =>
    intro k v h
    simp [splitFirstEq] at h
  | cons c rest ih =>
    intro k v h
    simp only [splitFirstEq] at h
    by_cases hc : c = eqsByte
    · rw [if_pos hc] at h
      simp only [Option.some.injEq, Prod.mk.injEq] at h
      obtain ⟨hk, hv⟩ := h
      subst hk
      subst hv
      constructor
      · intro b hb
        simp at hb
      · intro b hb
        exact List.mem_cons_of_mem _ hb
    · rw [if_neg hc] at h
      cases hse : splitFirstEq rest with
      | none =>
        rw [hse] at h
        cases h
      | some kv =>
        obtain ⟨k', v'⟩ := kv
        rw [hse] at h
        simp only [Option.some.injEq, Prod.mk.injEq] at h
        obtain ⟨hk, hv⟩ := h
        subst hk
        subst hv
        obtain ⟨ihk, ihv⟩ := ih k' v' hse
        constructor
        · intro b hb
          rcases List.mem_cons.mp hb with hb | hb
          · subst hb
            simp
          · exact List.mem_cons_of_mem _ (ihk b hb)
        · intro b hb
          exact List.mem_cons_of_mem _ (ihv b hb)

/-- Unquoting only emits actual bytes when given actual bytes. -/
theorem unquote_wf : ∀ s : List Nat, BytesWf s → BytesWf (unquote_plus s) := by
  intro s
  induction s using unquote_plus.induct with
  | case1 =>
    intro _
    rw [unquote_plus_nil]
    intro b hb
    simp at hb
  | case2 rest ih =>
    intro h
    rw [unquote_plus_cons, if_pos rfl]
    intro b hb
    rcases List.mem_cons.mp hb with hb | hb
    · subst hb
      norm_num [spaceByte]
    · exact ih (fun x hx => h x (List.mem_cons_of_mem _ hx)) b hb
  | case3 h1 h2 rest' hhex hne ih =>
    intro h
    rw [unquote_plus_cons, if_neg hne, if_pos rfl]
    simp only [hhex, if_true]
    intro b hb
    rcases List.mem_cons.mp hb with hb | hb
    · subst hb
      have hx := hhex
      simp only [Bool.and_eq_true] at hx
      obtain ⟨hx1, hx2⟩ := hx
      have := hexVal_lt h1 hx1
      have := hexVal_lt h2 hx2
      omega
    · exact ih (fun x hx => h x (by simp [List.mem_cons] at hx ⊢; tauto)) b hb
  | case4 h1 h2 rest' hhex hne ih =>
    intro h
    rw [unquote_plus_cons, if_neg hne, if_pos rfl]
    simp only [hhex, if_false]
    intro b hb
    rcases List.mem_cons.mp hb with hb | hb
    · subst hb
      norm_num [pctByte]
    · exact ih (fun x hx => h x (by simp [List.mem_cons] at hx ⊢; tauto)) b hb
  | case5 h1 hne ih =>
    intro h
    rw [unquote_plus_cons, if_neg hne, if_pos rfl]
    intro b hb
    rcases List.mem_cons.mp hb with hb | hb
    · subst hb
      norm_num [pctByte]
    · exact ih (fun x hx => h x (by simp [List.mem_cons] at hx ⊢; tauto)) b hb
  | case6 hne =>
    intro _
    rw [unquote_plus_cons, if_neg hne, if_pos rfl]
    intro b hb
    rcases List.mem_cons.mp hb with hb | hb
    · subst hb
      norm_num [pctByte]
    · simp at hb
  | case7 b rest hb1 hb2 ih =>
    intro h
    rw [unquote_plus_cons, if_neg hb1, if_neg hb2]
    intro x hx
    rcases List.mem_cons.mp hx with hx | hx
    · subst hx
      exact h x (List.mem_cons_self x rest)
    · exact ih (fun y hy => h y (List.mem_cons_of_mem _ hy)) x hx

/-- Unquoting a nonempty byte string yields a nonempty result. -/
theorem unquote_ne_nil (s : List Nat) (h : s ≠ []) : unquote_plus s ≠ [] := by
  cases s with
  | nil => simp at h
  | cons b rest =>
    rw [unquote_plus_cons]
    by_cases hb1 : b = plusByte
    · simp [hb1]
    · by_cases hb2 : b = pctByte
      · rw [if_neg hb1, if_pos hb2]
        rcases rest with _ | ⟨x, _ | ⟨y, rest'⟩⟩
        · simp
        · simp
        · show (if isHexB x && isHexB y then
              (16 * hexVal x + hexVal y) :: unquote_plus rest'
            else pctByte :: unquote_plus (x :: y :: rest')) ≠ []
          split <;> simp
      · simp [if_neg hb1, if_neg hb2]

/-- Every pair `parse_qsl` produces has well-formed bytes and a nonempty
value. -/
theorem parse_qsl_props (qs : List Nat) (h : BytesWf qs) :
    ∀ p ∈ parse_qsl qs, (BytesWf p.1 ∧ BytesWf p.2) ∧ p.2 ≠ [] := by
  have hfields : ∀ f ∈ splitAmp qs, BytesWf f :=
    fun f hf b hb => h b (splitAmp_sub qs f hf b hb)
  unfold parse_qsl
  generalize splitAmp qs = fs at hfields ⊢
  induction fs with
  | nil =>
    intro p hp
    simp at hp
  | cons f fs' ih =>
    intro p hp
    have hfw : BytesWf f := hfields f (List.mem_cons_self f fs')
    have hrest : ∀ g ∈ fs', BytesWf g := fun g hg => hfields g (List.mem_cons_of_mem _ hg)
    simp only [List.foldr_cons] at hp
    by_cases hfe : f = []
    · rw [if_pos hfe] at hp
      exact ih hrest p hp
    · rw [if_neg hfe] at hp
      cases hse : splitFirstEq f with
      | none =>
        simp only [hse] at hp
        exact ih hrest p hp
      | some kv =>
        obtain ⟨n, v⟩ := kv
        simp only [hse] at hp
        by_cases hve : v = []
        · rw [if_pos hve] at hp
          exact ih hrest p hp
        · rw [if_neg hve] at hp
          rcases List.mem_cons.mp hp with hp | hp
          · subst hp
            obtain ⟨hnk, hnv⟩ := splitFirstEq_sub f n v hse
            refine ⟨⟨unquote_wf n (fun b hb => hfw b (hnk b hb)),
              unquote_wf v (fun b hb => hfw b (hnv b hb))⟩, unquote_ne_nil v hve⟩
          · exact ih hrest p hp

theorem mem_keys_dictSet (d : List (List Nat × List Nat)) (k v a : List Nat)
    (h : a ∈ dKeys (dictSet d k v)) : a ∈ dKeys d ∨ a = k := by
  induction d with
  | nil =>
    simp [dictSet, dKeys] at h
    exact Or.inr h
  | cons p rest ih =>
    obtain ⟨k', v'⟩ := p
    simp only [dictSet] at h
    by_cases he : k' = k
    · rw [if_pos he] at h
      simp only [dKeys, List.map_cons, List.mem_cons] at h ⊢
      exact Or.inl h
    · rw [if_neg he] at h
      simp only [dKeys, List.map_cons, List.mem_cons] at h ⊢
      rcases h with h | h
      · exact Or.inl (Or.inl h)
      · rcases ih (by simpa [dKeys] using h) with h2 | h2
        · exact Or.inl (Or.inr (by simpa [dKeys] using h2))
        · exact Or.inr h2

theorem dictSet_nodup (d : List (List Nat × List Nat)) (k v : List Nat)
    (h : (dKeys d).Nodup) : (dKeys (dictSet d k v)).Nodup := by
  induction d with
  | nil => simp [dictSet, dKeys]
  | cons p rest ih =>
    obtain ⟨k', v'⟩ := p
    simp only [dictSet]
    by_cases he : k' = k
    · rw [if_pos he]
      simpa [dKeys] using h
    · rw [if_neg he]
      simp only [dKeys, List.map_cons, List.nodup_cons] at h ⊢
      obtain ⟨hk, hr⟩ := h
      refine ⟨?_, by simpa [dKeys] using ih (by simpa [dKeys] using hr)⟩
      intro hmem
      rcases mem_keys_dictSet rest k v k' (by simpa [dKeys] using hmem) with h2 | h2
      · exact hk (by simpa [dKeys] using h2)
      · exact he h2

theorem mem_dictSet_self (d : List (List Nat × List Nat)) (k v : List Nat) :
    (k, v) ∈ dictSet d k v := by
  induction d with
  | nil => simp [dictSet]
  | cons p rest ih =>
    obtain ⟨k', v'⟩ := p
    simp only [dictSet]
    by_cases he : k' = k
    · rw [if_pos he]
      subst he
      exact List.mem_cons_self _ _
    · rw [if_neg he]
      exact List.mem_cons_of_mem _ ih

theorem dLookup_dictSet (d : List (List Nat × List Nat)) (k v : List Nat) :
    dLookup (dictSet d k v) k = some v := by
  induction d with
  | nil => simp [dictSet, dLookup]
  | cons p rest ih =>
    obtain ⟨k', v'⟩ := p
    simp only [dictSet]
    by_cases he : k' = k
    · rw [if_pos he]
      simp [dLookup, he]
    · rw [if_neg he]
      simp [dLookup, he, ih]

theorem dictSet_eq_of_mem (d : List (List Nat × List Nat)) (k v : List Nat)
    (hnd : (dKeys d).Nodup) (hm : (k, v) ∈ d) : dictSet d k v = d := by
  induction d with
  | nil => simp at hm
  | cons p rest ih =>
    obtain ⟨k', v'⟩ := p
    simp only [dKeys, List.map_cons, List.nodup_cons] at hnd
    obtain ⟨hk, hr⟩ := hnd
    simp only [dictSet]
    rcases List.mem_cons.mp hm with hm | hm
    · have hkv : k = k' ∧ v = v' := by
        simpa [Prod.ext_iff] using hm
      rw [if_pos hkv.1.symm, hkv.2]
    · have hkk : k' ≠ k := by
        intro e
        subst e
        exact hk (List.mem_map_of_mem Prod.fst hm)
      rw [if_neg hkk, ih (by simpa [dKeys] using hr) hm]

theorem dictSet_not_mem (d : List (List Nat × List Nat)) (k v : List Nat)
    (h : k ∉ dKeys d) : dictSet d k v = d ++ [(k, v)] := by
  induction d with
  | nil => simp [dictSet]
  | cons p rest ih =>
    obtain ⟨k', v'⟩ := p
    have hk' : k' ≠ k := fun e => h (by simp [dKeys, e])
    have hrest : k ∉ dKeys rest := by
      intro e
      refine h ?_
      simp only [dKeys, List.map_cons, List.mem_cons]
      exact Or.inr (by simpa [dKeys] using e)
    simp [dictSet, if_neg hk', ih hrest]

theorem foldl_dictSet_nodup : ∀ (l : List (List Nat × List Nat)) acc,
    (dKeys acc).Nodup →
    (dKeys (l.foldl (fun d p => dictSet d p.1 p.2) acc)).Nodup := by
  intro l
  induction l with
  | nil => exact fun acc h => h
  | cons p rest ih =>
    intro acc h
    exact ih _ (dictSet_nodup acc p.1 p.2 h)

theorem pyDict_keys_nodup (l : List (List Nat × List Nat)) : (dKeys (pyDict l)).Nodup :=
  foldl_dictSet_nodup l [] (by simp [dKeys])

theorem foldl_dictSet_append : ∀ (l : List (List Nat × List Nat)) acc,
    (dKeys (acc ++ l)).Nodup →
    l.foldl (fun d p => dictSet d p.1 p.2) acc = acc ++ l := by
  intro l
  induction l with
  | nil =>
    intro acc h
    simp
  | cons p rest ih =>
    intro acc h
    obtain ⟨k, v⟩ := p
    have hknotin : k ∉ dKeys acc := by
      simp only [dKeys, List.map_append, List.map_cons] at h
      have hd := List.disjoint_of_nodup_append h
      intro hmem
      exact hd (by simpa [dKeys] using hmem) (List.mem_cons_self _ _)
    simp only [List.foldl_cons]
    rw [dictSet_not_mem acc k v hknotin]
    rw [ih (acc ++ [(k, v)]) (by simpa [List.append_assoc] using h)]
    simp

theorem pyDict_eq_of_nodup (l : List (List Nat × List Nat)) (h : (dKeys l).Nodup) :
    pyDict l = l := by
  have h2 := foldl_dictSet_append l [] (by simpa [dKeys] using h)
  simpa [pyDict] using h2

theorem dictSet_pres (P Q : List Nat → Prop) (d : List (List Nat × List Nat))
    (k v : List Nat) (hd : ∀ p ∈ d, P p.1 ∧ Q p.2) (hk : P k) (hv : Q v) :
    ∀ p ∈ dictSet d k v, P p.1 ∧ Q p.2 := by
  induction d with
  | nil =>
    intro p hp
    simp only [dictSet, List.mem_singleton] at hp
    subst hp
    exact ⟨hk, hv⟩
  | cons q rest ih =>
    obtain ⟨k', v'⟩ := q
    intro p hp
    simp only [dictSet] at hp
    by_cases he : k' = k
    · rw [if_pos he] at hp
      rcases List.mem_cons.mp hp with hp | hp
      · subst hp
        exact ⟨(hd (k', v') (by simp)).1, hv⟩
      · exact hd p (List.mem_cons_of_mem _ hp)
    · rw [if_neg he] at hp
      rcases List.mem_cons.mp hp with hp | hp
      · subst hp
        exact hd (k', v') (by simp)
      · exact ih (fun q hq => hd q (List.mem_cons_of_mem _ hq)) p hp

theorem foldl_dictSet_pres (P Q : List Nat → Prop) :
    ∀ (l : List (List Nat × List Nat)) acc,
    (∀ p ∈ acc, P p.1 ∧ Q p.2) → (∀ p ∈ l, P p.1 ∧ Q p.2) →
    ∀ p ∈ l.foldl (fun d q => dictSet d q.1 q.2) acc, P p.1 ∧ Q p.2 := by
  intro l
  induction l with
  | nil => exact fun acc hacc _ => hacc
  | cons q rest ih =>
    intro acc hacc hl
    simp only [List.foldl_cons]
    exact ih _ (dictSet_pres P Q acc q.1 q.2 hacc (hl q (by simp)).1 (hl q (by simp)).2)
      (fun p hp => hl p (List.mem_cons_of_mem _ hp))

theorem pyDict_pres (P Q : List Nat → Prop) (l : List (List Nat × List Nat))
    (hl : ∀ p ∈ l, P p.1 ∧ Q p.2) : ∀ p ∈ pyDict l, P p.1 ∧ Q p.2 :=
  foldl_dictSet_pres P Q l [] (by simp) hl

theorem urlencode_ne_nil (d : List (List Nat × List Nat)) (h : d ≠ []) :
    urlencode d ≠ [] := by
  cases d with
  | nil => simp at h
  | cons p rest =>
    simp only [urlencode, List.map_cons]
    cases hm : rest.map (fun p => quote_plus p.1 ++ eqsByte :: quote_plus p.2) with
    | nil => simp [joinAmp]
    | cons g gs => simp [joinAmp]

/-- Parsing inverts encoding for a dict whose values are nonempty and whose
bytes are well formed. -/
theorem parse_qsl_urlencode : ∀ d : List (List Nat × List Nat),
    (∀ p ∈ d, (BytesWf p.1 ∧ BytesWf p.2) ∧ p.2 ≠ []) →
    parse_qsl (urlencode d) = d := by
  intro d
  induction d with
  | nil => intro _; rfl
  | cons p rest ih =>
    intro hd
    obtain ⟨k, v⟩ := p
    have hk : BytesWf k := (hd (k, v) (by simp)).1.1
    have hvw : BytesWf v := (hd (k, v) (by simp)).1.2
    have hvne : v ≠ [] := (hd (k, v) (by simp)).2
    have hfield_amp : ampByte ∉ quote_plus k ++ eqsByte :: quote_plus v := by
      intro hmem
      rcases List.mem_append.mp hmem with hmem | hmem
      · exact (mem_quote_plus k hk ampByte hmem).1 rfl
      · rcases List.mem_cons.mp hmem with hmem | hmem
        · exact absurd hmem.symm (by norm_num [ampByte, eqsByte])
        · exact (mem_quote_plus v hvw ampByte hmem).1 rfl
    have hfield_ne : quote_plus k ++ eqsByte :: quote_plus v ≠ [] := by simp
    have hsfe : splitFirstEq (quote_plus k ++ eqsByte :: quote_plus v) =
        some (quote_plus k, quote_plus v) :=
      splitFirstEq_append (quote_plus k) (quote_plus v)
        (fun hmem => (mem_quote_plus k hk eqsByte hmem).2 rfl)
    cases rest with
    | nil =>
      simp only [urlencode, List.map_cons, List.map_nil, joinAmp]
      unfold parse_qsl
      rw [splitAmp_no_amp _ hfield_amp]
      simp only [List.foldr_cons, List.foldr_nil, if_neg hfield_ne, hsfe]
      rw [if_neg (quote_plus_ne_nil v hvne)]
      rw [unquote_quote k hk, unquote_quote v hvw]
    | cons q rest' =>
      have hrest := ih (fun p hp => hd p (List.mem_cons_of_mem _ hp))
      have hjoin : urlencode ((k, v) :: q :: rest') =
          (quote_plus k ++ eqsByte :: quote_plus v) ++ ampByte ::
            urlencode (q :: rest') := by
        simp [urlencode, joinAmp]
      rw [hjoin]
      unfold parse_qsl
      rw [splitAmp_append _ _ hfield_amp]
      simp only [List.foldr_cons, if_neg hfield_ne, hsfe]
      rw [if_neg (quote_plus_ne_nil v hvne)]
      rw [unquote_quote k hk, unquote_quote v hvw]
      unfold parse_qsl at hrest
      rw [hrest]

/-- C10: for every non-empty URL of well-formed bytes, `_get_download_url`
returns the URL with query parameter `dl` set to `"1"` (overriding any
existing `dl` value) while leaving scheme, host (netloc), path, params and
fragment unchanged, and it is idempotent: applied to its own output it yields
the same URL; the empty input returns `None`. -/
theorem get_download_url_spec (u : Url) (hwf : BytesWf u.query) (hne : u ≠ Url.empty) :
    (∃ r, get_download_url u = some r ∧
      r.scheme = u.scheme ∧ r.netloc = u.netloc ∧ r.path = u.path ∧
      r.params = u.params ∧ r.fragment = u.fragment ∧
      dLookup (parse_qsl r.query) dlKey = some oneVal ∧
      get_download_url r = some r) ∧
    get_download_url Url.empty = none := by
  refine ⟨?_, rfl⟩
  obtain ⟨us, un, upt, upr, uq, uf⟩ := u
  dsimp only at hwf
  have hprops : ∀ p ∈ parse_qsl uq, BytesWf p.1 ∧ (BytesWf p.2 ∧ p.2 ≠ []) :=
    fun p hp => ⟨(parse_qsl_props uq hwf p hp).1.1,
      (parse_qsl_props uq hwf p hp).1.2, (parse_qsl_props uq hwf p hp).2⟩
  have hd0 := pyDict_pres BytesWf (fun x => BytesWf x ∧ x ≠ []) (parse_qsl uq) hprops
  have hd1 := dictSet_pres BytesWf (fun x => BytesWf x ∧ x ≠ [])
    (pyDict (parse_qsl uq)) dlKey oneVal hd0 (by decide) (by decide)
  have hnodup : (dKeys (dictSet (pyDict (parse_qsl uq)) dlKey oneVal)).Nodup :=
    dictSet_nodup _ _ _ (pyDict_keys_nodup _)
  have hmem : (dlKey, oneVal) ∈ dictSet (pyDict (parse_qsl uq)) dlKey oneVal :=
    mem_dictSet_self _ _ _
  have hDne : dictSet (pyDict (parse_qsl uq)) dlKey oneVal ≠ [] := by
    intro e
    rw [e] at hmem
    simp at hmem
  have hround : parse_qsl (urlencode (dictSet (pyDict (parse_qsl uq)) dlKey oneVal)) =
      dictSet (pyDict (parse_qsl uq)) dlKey oneVal :=
    parse_qsl_urlencode _ (fun p hp => ⟨⟨(hd1 p hp).1, (hd1 p hp).2.1⟩, (hd1 p hp).2.2⟩)
  have hqne : urlencode (dictSet (pyDict (parse_qsl uq)) dlKey oneVal) ≠ [] :=
    urlencode_ne_nil _ hDne
  refine ⟨⟨us, un, upt, upr,
    urlencode (dictSet (pyDict (parse_qsl uq)) dlKey oneVal), uf⟩,
    ?_, rfl, rfl, rfl, rfl, rfl, ?_, ?_⟩
  · rw [get_download_url, if_neg hne]
  · show dLookup (parse_qsl (urlencode (dictSet (pyDict (parse_qsl uq)) dlKey oneVal)))
      dlKey = some oneVal
    rw [hround]
    exact dLookup_dictSet _ _ _
  · have hrne : (⟨us, un, upt, upr,
        urlencode (dictSet (pyDict (parse_qsl uq)) dlKey oneVal), uf⟩ : Url) ≠
        Url.empty := by
      intro e
      apply hqne
      have h2 := congrArg Url.query e
      simpa [Url.empty] using h2
    rw [get_download_url, if_neg hrne]
    dsimp only
    rw [hround, pyDict_eq_of_nodup _ hnodup, dictSet_eq_of_mem _ _ _ hnodup hmem]

/-- C10 witness: a concrete URL with an existing `dl=0` parameter. -/
theorem get_download_url_spec_witness :
    BytesWf (Url.mk [104] [101] [102] [] [100, 108, 61, 48] []).query ∧
    Url.mk [104] [101] [102] [] [100, 108, 61, 48] [] ≠ Url.empty ∧
    (∃ r, get_download_url (Url.mk [104] [101] [102] [] [100, 108, 61, 48] []) = some r ∧
      r.scheme = [104] ∧ r.netloc = [101] ∧ r.path = [102] ∧
      r.params = ([] : List Nat) ∧ r.fragment = ([] : List Nat) ∧
      dLookup (parse_qsl r.query) dlKey = some oneVal ∧
      get_download_url r = some r) := by
  refine ⟨by decide, by decide, ?_⟩
  exact (get_download_url_spec (Url.mk [104] [101] [102] [] [100, 108, 61, 48] [])
    (by decide) (by decide)).1

end TwatFs
